import Mathlib

/-!
Verification development for the `rna-structure-prediction` repository.

The repository implements a Nussinov-style dynamic program over a nucleotide
sequence, in two variants:

* `structure_prediction.py` (class `PredictStructure`): single-base pairing,
  with a flat (`LEGAL_PAIRS`) or weighted (`LEGAL_PAIRS_ENERGY`) score map and
  a minimum-separation `gap`;
* `structure_prediction_stacked.py` (class `PredictStableStructure`):
  pairing of adjacent dinucleotides scored through a 6 by 6 matrix.

Both variants share the table shape, the fill loop, `get_table_score` and the
traceback; they differ in the symbol type, the legality test and the scores.
We embed the shared core once, parameterised by a `Model`, and instantiate it
for each variant exactly as the Python code does.
-/

namespace RNA

/-- Pairing model: legality test and contribution score between two symbols.
For the base variant the symbols are single bases (`Char`); for the stacked
variant they are dinucleotides. -/
structure Model (α : Type) where
  legal : α → α → Bool
  score : α → α → Int

/-- Embeds `LEGAL_PAIRS` of `structure_prediction.py`: the flat score map. -/
def LEGAL_PAIRS : List ((Char × Char) × Int) :=
  [(('A', 'U'), 1), (('U', 'A'), 1), (('G', 'C'), 1), (('C', 'G'), 1)]

/-- Embeds `LEGAL_PAIRS_ENERGY` of `structure_prediction.py`: the weighted map. -/
def LEGAL_PAIRS_ENERGY : List ((Char × Char) × Int) :=
  [(('A', 'U'), 2), (('U', 'A'), 2), (('G', 'C'), 3), (('C', 'G'), 3)]

/-- Dictionary lookup on an association list (a Python dict keyed by pairs). -/
def dictLookup (m : List ((Char × Char) × Int)) (p : Char × Char) : Option Int :=
  (m.find? (fun q => q.1 == p)).map (fun q => q.2)

/-- Base-variant model: `is_legal` is `pair in legal_pairs.keys()`, the score is
`legal_pairs[pair]` (only ever read after the legality test succeeds). -/
def baseModel (m : List ((Char × Char) × Int)) : Model Char where
  legal := fun x y => (dictLookup m (x, y)).isSome
  score := fun x y => (dictLookup m (x, y)).getD 0

/-- Embeds `PAIR_MATRIX_MAPPING` of `structure_prediction_stacked.py`. -/
def PAIR_MATRIX_MAPPING : List ((Char × Char) × Nat) :=
  [(('A', 'U'), 0), (('U', 'A'), 1), (('G', 'C'), 2), (('C', 'G'), 3),
   (('G', 'U'), 4), (('U', 'G'), 5)]

/-- Embeds `LEGAL_PAIR_MATRIX` of `structure_prediction_stacked.py` (all ones). -/
def LEGAL_PAIR_MATRIX : List (List Int) :=
  [[1, 1, 1, 1, 1, 1], [1, 1, 1, 1, 1, 1], [1, 1, 1, 1, 1, 1],
   [1, 1, 1, 1, 1, 1], [1, 1, 1, 1, 1, 1], [1, 1, 1, 1, 1, 1]]

/-- A dinucleotide as built by `PredictStableStructure.__init__`: the pair
`(n_bases[i], n_bases[i+1])`, or `(n_bases[i], '')` at the last position.
The empty-string second component is modelled by `none`. -/
abbrev Dinuc := Char × Option Char

/-- Index of a dinucleotide in `PAIR_MATRIX_MAPPING`, `none` when absent.
The last-position dinucleotide `(c, '')` is never a key of the mapping. -/
def dinucIndex? : Dinuc → Option Nat
  | (a, some b) => (PAIR_MATRIX_MAPPING.find? (fun q => q.1 == (a, b))).map (fun q => q.2)
  | (_, none) => none

/-- Embeds `PredictStableStructure.is_legal`: membership in the mapping keys. -/
def isLegalDinuc (d : Dinuc) : Bool := (dinucIndex? d).isSome

/-- Entry of the 6 by 6 stacking matrix. -/
def matrixEntry (i j : Nat) : Int := (LEGAL_PAIR_MATRIX.getD i []).getD j 0

/-- Stacked-variant model used by `fill_table`: both dinucleotides must be
legal, and the score is `legal_pair_matrix[idx0][idx1]`. -/
def stackedFillModel : Model Dinuc where
  legal := fun a b => isLegalDinuc a && isLegalDinuc b
  score := fun a b => matrixEntry ((dinucIndex? a).getD 0) ((dinucIndex? b).getD 0)

/-- Score used by the stacked `trace_non_crossings`: the code computes
`legal_pair_matrix[mapping[pairs[0]]][mapping[pairs[0]]]`, indexing the matrix
twice with the FIRST dinucleotide (as written in the source). -/
def stackedTraceScore (a _b : Dinuc) : Int :=
  matrixEntry ((dinucIndex? a).getD 0) ((dinucIndex? a).getD 0)

/-- Embeds the `n_base_pairs` list comprehension of
`PredictStableStructure.__init__`. -/
def n_base_pairs (s : List Char) : List Dinuc :=
  (List.range s.length).map (fun i =>
    if i = s.length - 1 then (s.getD i ' ', none)
    else (s.getD i ' ', some (s.getD (i + 1) ' ')))

/-- The DP table: a list of rows of integers, as in the Python code. -/
abbrev Table := List (List Int)

/-- Read `table[i][j]`.  All reads performed by the embedded algorithms are in
range, so the defaults are never consulted there. -/
def tget (T : Table) (i j : Nat) : Int := (T.getD i []).getD j (-1)

/-- Write `table[i][j] = v`. -/
def tset (T : Table) (i j : Nat) (v : Int) : Table :=
  T.set i ((T.getD i []).set j v)

/-- Embeds `initialize_table`: an n by n matrix of `-1` with the main diagonal
and the diagonal below it set to `0`. -/
def initialize_table (n : Nat) : Table :=
  (List.range n).map (fun i =>
    (List.range n).map (fun j => if j = i then 0 else if j + 1 = i then 0 else -1))

/-- Python's `max` over a nonempty list (all call sites pass a nonempty list;
the `[]` case is unreachable). -/
def pyMax : List Int → Int
  | [] => 0
  | x :: xs => xs.foldl max x

/-- Sequence access `n_bases[i]` (as a total function; all uses are in range). -/
def symOf (s : List Char) (i : Nat) : Char := s.getD i ' '

/-- Dinucleotide access `n_base_pairs[i]`. -/
def dsymOf (s : List Char) (i : Nat) : Dinuc := (n_base_pairs s).getD i (' ', none)

/-- The value stored by one iteration of the fill loop body at `(row, col)`:
if `col - row > gap`, either the forced pairing value (when the end pair is
legal) or the maximum of the two unpaired terms and the bifurcation terms;
otherwise `0`. -/
def newVal (M : Model α) (sym : Nat → α) (gap : Nat) (T : Table) (row col : Nat) : Int :=
  if col - row > gap then
    if M.legal (sym row) (sym col) then
      M.score (sym row) (sym col) + tget T (row + 1) (col - 1)
    else
      pyMax [tget T (row + 1) col, tget T row (col - 1),
        pyMax ((List.range' row (col - row)).map (fun k => tget T row k + tget T (k + 1) col))]
  else 0

/-- One iteration of the inner fill loop: `table[row][col] = newVal`. -/
def fillCell (M : Model α) (sym : Nat → α) (gap : Nat) (T : Table) (row col : Nat) : Table :=
  tset T row col (newVal M sym gap T row col)

/-- Inner loop of `fill_table`: `for i in range(n - distance)` at a fixed
`distance` `d`, writing cells `(i, i + d)`. -/
def fillBand (M : Model α) (sym : Nat → α) (gap n : Nat) (T : Table) (d : Nat) : Table :=
  (List.range (n - d)).foldl (fun T i => fillCell M sym gap T i (i + d)) T

/-- Embeds `fill_table`: `for distance_from_diagonal in range(1, n)` over the
initialized table. -/
def fill_table (M : Model α) (sym : Nat → α) (gap n : Nat) (T0 : Table) : Table :=
  (List.range' 1 (n - 1)).foldl (fillBand M sym gap n) T0

/-- Reference form of the filled table, by recursion on the band distance:
`tblR i j` is the value cell `(i, j)` holds after `fill_table` completes
(proved below as `fill_table_eq_tblR`).  Cells with `j ≤ i` keep their
initialized values. -/
def tblR (M : Model α) (sym : Nat → α) (gap : Nat) (i j : Nat) : Int :=
  if j ≤ i then (if i = j then 0 else if j + 1 = i then 0 else -1)
  else if j - i ≤ gap then 0
  else if M.legal (sym i) (sym j) then
    M.score (sym i) (sym j) + tblR M sym gap (i + 1) (j - 1)
  else
    pyMax [tblR M sym gap (i + 1) j, tblR M sym gap i (j - 1),
      pyMax (((List.range' i (j - i)).attach).map
        (fun k => tblR M sym gap i k.1 + tblR M sym gap (k.1 + 1) j))]
termination_by j - i
decreasing_by
  all_goals try obtain ⟨k, hk⟩ := k
  all_goals try dsimp only
  all_goals try rw [List.mem_range'_1] at hk
  all_goals omega

/-- Embeds `get_table_score`: reads `table[i][j]` but returns `0` for a
negative column index (the `j < 0` guard in the Python accessor). -/
def get_table_score (T : Table) (i : Nat) (j : Int) : Int :=
  if j < 0 then 0 else tget T i j.toNat

/-- The scan condition of `trace_non_crossings` at candidate `k`: the pair
`(sym k, sym j)` is legal and the cell value decomposes as
`table[i][k-1] + table[k+1][j-1] + score`. -/
def tracePred (M : Model α) (sym : Nat → α) (scoreT : α → α → Int) (T : Table)
    (i j k : Nat) : Bool :=
  M.legal (sym k) (sym j) &&
    decide (get_table_score T i ((j : Int)) =
      get_table_score T i ((k : Int) - 1) + get_table_score T (k + 1) ((j : Int) - 1) +
        scoreT (sym k) (sym j))

/-- First `k` in `range(i, j - gap)` accepted by the scan of
`trace_non_crossings` (the base variant passes its `gap`, the stacked variant
scans `range(i, j)`, i.e. `gap = 0`). -/
def findPairK (M : Model α) (sym : Nat → α) (scoreT : α → α → Int) (T : Table)
    (gap i j : Nat) : Option Nat :=
  (List.range' i (j - gap - i)).find? (tracePred M sym scoreT T i j)

/-- Embeds `trace_non_crossings`, returning the recorded pairs in the order
the code records them (pair first, then the left recursion, then the right
one).  The base variant records a pair by writing `'{'`/`'}'` marks, the
stacked variant by appending to `base_pairs_braces`; both record the same
`(k, j)` at the same moments.  `fuel` is an artifact of the embedding: every
recursive call strictly decreases `j - i`, so any `fuel > j - i` computes the
function (see `trace_fuel_irrel`).  Python's `j - 1` and `k - 1` arguments can
be `-1`; with saturating `Nat` subtraction the guard `j ≤ i` returns `[]` in
exactly the same cases. -/
def trace_non_crossings (M : Model α) (sym : Nat → α) (scoreT : α → α → Int)
    (T : Table) (gap : Nat) : Nat → Nat → Nat → List (Nat × Nat)
  | 0, _, _ => []
  | fuel + 1, i, j =>
    if j ≤ i then []
    else if get_table_score T i ((j : Int)) = get_table_score T i ((j : Int) - 1) then
      trace_non_crossings M sym scoreT T gap fuel i (j - 1)
    else
      match findPairK M sym scoreT T gap i j with
      | some k =>
          (k, j) :: (trace_non_crossings M sym scoreT T gap fuel i (k - 1) ++
            trace_non_crossings M sym scoreT T gap fuel (k + 1) (j - 1))
      | none => []

/-- One recorded pair of the base variant as rendered by
`trace_non_crossings`: `output[k] = '{'` then `output[j] = '}'`. -/
def base_render_step (o : List Char) (p : Nat × Nat) : List Char :=
  (o.set p.1 '{').set p.2 '}'

/-- The base variant's `output` list after the traceback: all `'.'`, with the
marks written in the order the walk records pairs. -/
def base_output (pairs : List (Nat × Nat)) (n : Nat) : List Char :=
  pairs.foldl base_render_step (List.replicate n '.')

/-- One iteration of the stacked `decode_output` loop for a recorded pair
`(k, j)`: `output[k] = '{'`; `output[k+1] = '{'` if it still holds `'.'`;
`output[j] = '}'` if it still holds `'.'`; `output[j+1] = '}'`
unconditionally.  (The reads are in range on every reachable run, see
`stacked_pair_bounds`.) -/
def decode_step (o : List Char) (p : Nat × Nat) : List Char :=
  let o1 := o.set p.1 '{'
  let o2 := if o1.getD (p.1 + 1) ' ' = '.' then o1.set (p.1 + 1) '{' else o1
  let o3 := if o2.getD p.2 ' ' = '.' then o2.set p.2 '}' else o2
  o3.set (p.2 + 1) '}'

/-- Embeds `PredictStableStructure.decode_output`. -/
def decode_output (pairs : List (Nat × Nat)) (n : Nat) : List Char :=
  pairs.foldl decode_step (List.replicate n '.')

/-- Python list indexing `l[i]` as a partial operation: negative indices wrap
from the end, and an out-of-range access (an `IndexError`) is `none`. -/
def pyNth? (l : List α) (i : Int) : Option α :=
  if i < 0 then (if (-i).toNat ≤ l.length then l[(l.length - (-i).toNat)]? else none)
  else l[i.toNat]?

/-- The score read performed by `write_output`:
`self.table[0][len(self.n_bases) - 1]`.  On the empty sequence the table is
empty and `table[0]` raises `IndexError`, modelled here by `none`. -/
def write_output_score (T : Table) (n : Nat) : Option Int :=
  (pyNth? T 0).bind (fun row => pyNth? row ((n : Int) - 1))

/-- The filled table of a `PredictStructure` run. -/
def baseTable (m : List ((Char × Char) × Int)) (s : List Char) (gap : Nat) : Table :=
  fill_table (baseModel m) (symOf s) gap s.length (initialize_table s.length)

/-- The pairs recorded by a `PredictStructure` run:
`trace_non_crossings(0, len(n_bases) - 1)` on the filled table.  The fuel
`s.length` exceeds the initial `j - i`, so the fueled embedding computes the
full walk. -/
def basePairs (m : List ((Char × Char) × Int)) (s : List Char) (gap : Nat) :
    List (Nat × Nat) :=
  trace_non_crossings (baseModel m) (symOf s) (baseModel m).score (baseTable m s gap)
    gap s.length 0 (s.length - 1)

/-- The annotation list of a `PredictStructure` run. -/
def baseOutput (m : List ((Char × Char) × Int)) (s : List Char) (gap : Nat) :
    List Char :=
  base_output (basePairs m s gap) s.length

/-- The filled table of a `PredictStableStructure` run (its fill uses
`col - row > 0`, i.e. gap `0`, over dinucleotide symbols). -/
def stackedTable (s : List Char) : Table :=
  fill_table stackedFillModel (dsymOf s) 0 s.length (initialize_table s.length)

/-- The `base_pairs_braces` list of a `PredictStableStructure` run. -/
def stackedPairs (s : List Char) : List (Nat × Nat) :=
  trace_non_crossings stackedFillModel (dsymOf s) stackedTraceScore (stackedTable s)
    0 s.length 0 (s.length - 1)

/-- The decoded annotation of a `PredictStableStructure` run. -/
def stackedOutput (s : List Char) : List Char :=
  decode_output (stackedPairs s) s.length

/-- The recognized alphabet. -/
def RECOG : List Char := ['A', 'C', 'G', 'U']

/-- Shape predicate: an n by n table. -/
def Shaped (n : Nat) (T : Table) : Prop :=
  T.length = n ∧ ∀ r, r < n → (T.getD r []).length = n

/-- Invariant for the band fill: the table is n by n, the cells strictly
inside the processed region (band distance below `D`, or equal to `D` with
row below `I`) hold their `tblR` values, and every other cell still holds its
initialized value. -/
def DoneB (M : Model α) (sym : Nat → α) (gap n : Nat) (T : Table) (D I : Nat) : Prop :=
  Shaped n T ∧
    ∀ i j, i < n → j < n →
      tget T i j =
        if i < j ∧ (j - i < D ∨ (j - i = D ∧ i < I)) then tblR M sym gap i j
        else tget (initialize_table n) i j

/-- Two pairs with all four endpoints distinct. -/
def distinctEnds (p q : Nat × Nat) : Prop :=
  p.1 ≠ q.1 ∧ p.1 ≠ q.2 ∧ p.2 ≠ q.1 ∧ p.2 ≠ q.2

/-- Position `p` of the annotation holds a bracket symbol. -/
def brkAt (o : List Char) (p : Nat) : Prop := o[p]? = some '{' ∨ o[p]? = some '}'

/-- Every character of the annotation is a dot or a bracket. -/
def charsOK (o : List Char) : Prop := ∀ c ∈ o, c = '.' ∨ c = '{' ∨ c = '}'

/-- Modelled from the spec: two index pairs are compatible in a non-crossing
set when they are disjoint or properly nested. -/
def pairsCompatible (p q : Nat × Nat) : Bool :=
  decide (p.2 < q.1) || decide (q.2 < p.1) ||
    (decide (p.1 < q.1) && decide (q.2 < p.2)) ||
    (decide (q.1 < p.1) && decide (p.2 < q.2))

/-- Modelled from the spec: pairwise compatibility of a pair list. -/
def pairwiseCompatible : List (Nat × Nat) → Bool
  | [] => true
  | p :: ps => ps.all (pairsCompatible p) && pairwiseCompatible ps

/-- Modelled from the spec: a set of index pairs is admissible inside
`[lo, hi]` for sequence `s` and separation `gap` when every pair is within the
interval, respects `j - i > gap`, is a legal pair of the model, and the set is
non-crossing. -/
def specPairSetOK (m : List ((Char × Char) × Int)) (s : List Char)
    (gap lo hi : Nat) (ps : List (Nat × Nat)) : Bool :=
  ps.all (fun p => decide (lo ≤ p.1) && decide (p.1 < p.2) && decide (p.2 ≤ hi) &&
    decide (gap < p.2 - p.1) && (baseModel m).legal (symOf s p.1) (symOf s p.2)) &&
  pairwiseCompatible ps

/-- Modelled from the spec: the additive score of a pair set. -/
def specPairSetScore (m : List ((Char × Char) × Int)) (s : List Char)
    (ps : List (Nat × Nat)) : Int :=
  (ps.map (fun p => (baseModel m).score (symOf s p.1) (symOf s p.2))).foldl (· + ·) 0

/-! ### Basic lemmas about the table representation -/

theorem shaped_initialize_table (n : Nat) : Shaped n (initialize_table n) := by
  constructor
  · simp [initialize_table]
  · intro r hr
    simp [initialize_table, List.getD_eq_getElem?_getD, List.getElem?_map,
      List.getElem?_range hr]

theorem tget_initialize_table {n : Nat} {i j : Nat} (hi : i < n) (hj : j < n) :
    tget (initialize_table n) i j = if j = i then 0 else if j + 1 = i then 0 else -1 := by
  simp [initialize_table, tget, List.getD_eq_getElem?_getD, List.getElem?_map,
    List.getElem?_range hi, List.getElem?_range hj]

theorem shaped_tset {n : Nat} {T : Table} (h : Shaped n T) (i j : Nat) (v : Int) :
    Shaped n (tset T i j v) := by
  obtain ⟨hlen, hrow⟩ := h
  constructor
  · simp [tset, hlen]
  · intro r hr
    rcases eq_or_ne r i with rfl | hne
    · by_cases hrn : r < T.length
      · simp only [tset, List.getD_eq_getElem?_getD, List.getElem?_set_eq_of_lt _ hrn]
        simpa using hrow r hr
      · simp only [tset, List.getD_eq_getElem?_getD, List.getElem?_set]
        simp only [if_pos rfl, if_neg hrn]
        have := hrow r hr
        rw [List.getD_eq_getElem?_getD, List.getElem?_eq_none (by omega)] at this
        simpa using this
    · simp only [tset, List.getD_eq_getElem?_getD, List.getElem?_set_ne (Ne.symm hne)]
      have := hrow r hr
      rwa [List.getD_eq_getElem?_getD] at this

theorem tget_tset_ne {T : Table} {i j r c : Nat} (h : ¬(r = i ∧ c = j)) (v : Int) :
    tget (tset T i j v) r c = tget T r c := by
  rcases eq_or_ne r i with rfl | hne
  · have hcj : c ≠ j := fun hc => h ⟨rfl, hc⟩
    simp only [tset, tget, List.getD_eq_getElem?_getD, List.getElem?_set]
    by_cases hrn : r < T.length
    · simp [hrn, List.getElem?_set_ne (Ne.symm hcj)]
    · simp [hrn, List.getElem?_eq_none (le_of_not_lt hrn)]
  · simp only [tset, tget, List.getD_eq_getElem?_getD, List.getElem?_set_ne (Ne.symm hne)]

theorem tget_tset_eq {n : Nat} {T : Table} (h : Shaped n T) {i j : Nat}
    (hi : i < n) (hj : j < n) (v : Int) : tget (tset T i j v) i j = v := by
  obtain ⟨hlen, hrow⟩ := h
  have hiT : i < T.length := by omega
  have hjr : j < (T.getD i []).length := by rw [hrow i hi]; omega
  rw [List.getD_eq_getElem?_getD] at hjr
  simp only [tset, tget, List.getD_eq_getElem?_getD, List.getElem?_set_eq_of_lt _ hiT,
    Option.getD_some]
  rw [List.getElem?_set_eq_of_lt v hjr]
  rfl

/-! ### Lemmas about `pyMax` -/

theorem le_foldl_max (l : List Int) : ∀ b, b ≤ l.foldl max b := by
  induction l with
  | nil => intro b; simp
  | cons x xs ih =>
      intro b
      calc b ≤ max b x := le_max_left _ _
        _ ≤ xs.foldl max (max b x) := ih _

theorem mem_le_foldl_max (l : List Int) : ∀ b a, a ∈ l → a ≤ l.foldl max b := by
  induction l with
  | nil => intro b a h; simp at h
  | cons x xs ih =>
      intro b a h
      rcases List.mem_cons.mp h with rfl | h
      · calc a ≤ max b a := le_max_right _ _
          _ ≤ xs.foldl max (max b a) := le_foldl_max _ _
      · exact ih _ _ h

theorem le_pyMax_of_mem {l : List Int} {a : Int} (h : a ∈ l) : a ≤ pyMax l := by
  cases l with
  | nil => simp at h
  | cons x xs =>
      rcases List.mem_cons.mp h with rfl | h
      · exact le_foldl_max _ _
      · exact mem_le_foldl_max _ _ _ h

/-! ### Unfolded equations for `tblR` -/

theorem tblR_of_le {M : Model α} {sym : Nat → α} {gap i j : Nat} (h : j ≤ i) :
    tblR M sym gap i j = if i = j then 0 else if j + 1 = i then 0 else -1 := by
  rw [tblR, if_pos h]

theorem tblR_gap {M : Model α} {sym : Nat → α} {gap i j : Nat}
    (h1 : i < j) (h2 : j - i ≤ gap) : tblR M sym gap i j = 0 := by
  rw [tblR, if_neg (by omega), if_pos h2]

theorem tblR_legal {M : Model α} {sym : Nat → α} {gap i j : Nat}
    (h1 : i < j) (h2 : gap < j - i) (h3 : M.legal (sym i) (sym j) = true) :
    tblR M sym gap i j = M.score (sym i) (sym j) + tblR M sym gap (i + 1) (j - 1) := by
  rw [tblR, if_neg (by omega), if_neg (by omega), if_pos h3]

theorem tblR_illegal {M : Model α} {sym : Nat → α} {gap i j : Nat}
    (h1 : i < j) (h2 : gap < j - i) (h3 : M.legal (sym i) (sym j) = false) :
    tblR M sym gap i j =
      pyMax [tblR M sym gap (i + 1) j, tblR M sym gap i (j - 1),
        pyMax ((List.range' i (j - i)).map
          (fun k => tblR M sym gap i k + tblR M sym gap (k + 1) j))] := by
  rw [tblR, if_neg (by omega), if_neg (by omega), if_neg (by simp [h3])]
  rw [List.attach_map_val (List.range' i (j - i))
    (fun k => tblR M sym gap i k + tblR M sym gap (k + 1) j)]

/-! ### The fill loop computes `tblR` -/

theorem init_agrees_tblR {M : Model α} {sym : Nat → α} {gap n i j : Nat}
    (hi : i < n) (hj : j < n) (h : j ≤ i) :
    tget (initialize_table n) i j = tblR M sym gap i j := by
  rw [tget_initialize_table hi hj, tblR_of_le h]
  rcases eq_or_ne i j with rfl | hne
  · simp
  · rw [if_neg (by omega), if_neg hne]

theorem doneB_read {M : Model α} {sym : Nat → α} {gap n : Nat} {T : Table} {D I : Nat}
    (h : DoneB M sym gap n T D I) {a b : Nat} (ha : a < n) (hb : b < n)
    (hcond : b ≤ a ∨ b - a < D ∨ (b - a = D ∧ a < I)) :
    tget T a b = tblR M sym gap a b := by
  rcases lt_or_ge a b with hab | hab
  · rw [h.2 a b ha hb, if_pos ⟨hab, by omega⟩]
  · rw [h.2 a b ha hb, if_neg (by omega)]
    exact init_agrees_tblR ha hb (by omega)

theorem doneB_fillCell {M : Model α} {sym : Nat → α} {gap n : Nat} {T : Table} {D I : Nat}
    (h : DoneB M sym gap n T D I) (hD1 : 1 ≤ D) (hI : I + D < n) :
    DoneB M sym gap n (fillCell M sym gap T I (I + D)) D (I + 1) := by
  obtain ⟨hsh, hval⟩ := h
  have hIn : I < n := by omega
  have hwrite : tget (fillCell M sym gap T I (I + D)) I (I + D) =
      newVal M sym gap T I (I + D) := tget_tset_eq hsh hIn hI _
  have hmain : newVal M sym gap T I (I + D) = tblR M sym gap I (I + D) := by
    unfold newVal
    have hd : I + D - I = D := by omega
    by_cases hgap : I + D - I > gap
    · rw [if_pos hgap]
      by_cases hleg : M.legal (sym I) (sym (I + D)) = true
      · rw [if_pos hleg, tblR_legal (by omega) (by omega) hleg]
        congr 1
        exact doneB_read ⟨hsh, hval⟩ (by omega) (by omega) (by omega)
      · have e1 : tget T (I + 1) (I + D) = tblR M sym gap (I + 1) (I + D) :=
          doneB_read ⟨hsh, hval⟩ (by omega) (by omega) (by omega)
        have e2 : tget T I (I + D - 1) = tblR M sym gap I (I + D - 1) :=
          doneB_read ⟨hsh, hval⟩ (by omega) (by omega) (by omega)
        have e3 : (List.range' I (I + D - I)).map
              (fun k => tget T I k + tget T (k + 1) (I + D)) =
            (List.range' I (I + D - I)).map
              (fun k => tblR M sym gap I k + tblR M sym gap (k + 1) (I + D)) := by
          refine List.map_congr_left (fun k hk => ?_)
          rw [List.mem_range'_1] at hk
          have ea : tget T I k = tblR M sym gap I k :=
            doneB_read ⟨hsh, hval⟩ (by omega) (by omega) (by omega)
          have eb : tget T (k + 1) (I + D) = tblR M sym gap (k + 1) (I + D) :=
            doneB_read ⟨hsh, hval⟩ (by omega) (by omega) (by omega)
          rw [ea, eb]
        rw [if_neg hleg, tblR_illegal (by omega) (by omega) (by simpa using hleg),
          e1, e2, e3]
    · rw [if_neg hgap, tblR_gap (by omega) (by omega)]
  refine ⟨shaped_tset hsh _ _ _, fun i j hi hj => ?_⟩
  by_cases hij : i = I ∧ j = I + D
  · obtain ⟨rfl, rfl⟩ := hij
    rw [hwrite, hmain, if_pos ⟨by omega, by omega⟩]
  · rw [show fillCell M sym gap T I (I + D) = tset T I (I + D) (newVal M sym gap T I (I + D))
      from rfl, tget_tset_ne hij _, hval i j hi hj]
    exact if_congr (by omega) rfl rfl

theorem doneB_band_aux {M : Model α} {sym : Nat → α} {gap n : Nat} {D : Nat} (hD1 : 1 ≤ D) :
    ∀ c s T, s + c ≤ n - D → DoneB M sym gap n T D s →
      DoneB M sym gap n
        ((List.range' s c).foldl (fun T i => fillCell M sym gap T i (i + D)) T) D (s + c) := by
  intro c
  induction c with
  | zero => intro s T _ h; simpa using h
  | succ c ih =>
      intro s T hsc h
      rw [List.range'_succ, List.foldl_cons]
      have hstep := doneB_fillCell h hD1 (by omega)
      have := ih (s + 1) _ (by omega) hstep
      rw [show s + 1 + c = s + (c + 1) by omega] at this
      exact this

theorem doneB_fillBand {M : Model α} {sym : Nat → α} {gap n : Nat} {T : Table} {D : Nat}
    (hD1 : 1 ≤ D) (h : DoneB M sym gap n T D 0) :
    DoneB M sym gap n (fillBand M sym gap n T D) D (n - D) := by
  unfold fillBand
  rw [List.range_eq_range']
  simpa using doneB_band_aux hD1 (n - D) 0 T (by omega) h

theorem doneB_shift {M : Model α} {sym : Nat → α} {gap n : Nat} {T : Table} {D : Nat}
    (h : DoneB M sym gap n T D (n - D)) : DoneB M sym gap n T (D + 1) 0 := by
  refine ⟨h.1, fun i j hi hj => ?_⟩
  rw [h.2 i j hi hj]
  by_cases hc : i < j ∧ (j - i < D ∨ (j - i = D ∧ i < n - D))
  · rw [if_pos hc, if_pos ⟨hc.1, Or.inl (by omega)⟩]
  · rw [if_neg hc, if_neg (by
      intro hc2
      refine hc ⟨hc2.1, ?_⟩
      rcases hc2.2 with hlt | ⟨_, hi0⟩
      · rcases Nat.lt_or_ge (j - i) D with h1 | h1
        · exact Or.inl h1
        · exact Or.inr ⟨by omega, by omega⟩
      · omega)]

theorem doneB_outer_aux {M : Model α} {sym : Nat → α} {gap n : Nat} :
    ∀ c s T, 1 ≤ s → DoneB M sym gap n T s 0 →
      DoneB M sym gap n ((List.range' s c).foldl (fillBand M sym gap n) T) (s + c) 0 := by
  intro c
  induction c with
  | zero => intro s T _ h; simpa using h
  | succ c ih =>
      intro s T hs h
      rw [List.range'_succ, List.foldl_cons]
      have hband := doneB_fillBand hs h
      have hshift := doneB_shift hband
      have := ih (s + 1) _ (by omega) hshift
      rw [show s + 1 + c = s + (c + 1) by omega] at this
      exact this

theorem doneB_init {M : Model α} {sym : Nat → α} {gap n : Nat} :
    DoneB M sym gap n (initialize_table n) 1 0 := by
  refine ⟨shaped_initialize_table n, fun i j hi hj => ?_⟩
  rw [if_neg (by omega)]

/-- After `fill_table` completes, every cell of the n by n table holds its
`tblR` value. -/
theorem fill_table_eq_tblR (M : Model α) (sym : Nat → α) (gap n : Nat) :
    ∀ i j, i < n → j < n →
      tget (fill_table M sym gap n (initialize_table n)) i j = tblR M sym gap i j := by
  intro i j hi hj
  have h := doneB_outer_aux (n - 1) 1 (initialize_table n) (by omega)
    (doneB_init : DoneB M sym gap n (initialize_table n) 1 0)
  rw [show (1 + (n - 1)) = n by omega] at h
  unfold fill_table
  rcases lt_or_ge i j with hij | hij
  · rw [h.2 i j hi hj, if_pos ⟨hij, Or.inl (by omega)⟩]
  · rw [h.2 i j hi hj, if_neg (by omega)]
    exact init_agrees_tblR hi hj (by omega)

/-! ### Structural lemmas about the traceback -/

theorem trace_of_le {M : Model α} {sym : Nat → α} {sc : α → α → Int} {T : Table}
    {gap f i j : Nat} (h : j ≤ i) :
    trace_non_crossings M sym sc T gap (f + 1) i j = [] := by
  simp only [trace_non_crossings, if_pos h]

theorem trace_eq_branch {M : Model α} {sym : Nat → α} {sc : α → α → Int} {T : Table}
    {gap f i j : Nat} (h1 : ¬ j ≤ i)
    (h2 : get_table_score T i ((j : Int)) = get_table_score T i ((j : Int) - 1)) :
    trace_non_crossings M sym sc T gap (f + 1) i j =
      trace_non_crossings M sym sc T gap f i (j - 1) := by
  simp only [trace_non_crossings, if_neg h1, if_pos h2]

theorem trace_some_branch {M : Model α} {sym : Nat → α} {sc : α → α → Int} {T : Table}
    {gap f i j k : Nat} (h1 : ¬ j ≤ i)
    (h2 : ¬ get_table_score T i ((j : Int)) = get_table_score T i ((j : Int) - 1))
    (h3 : findPairK M sym sc T gap i j = some k) :
    trace_non_crossings M sym sc T gap (f + 1) i j =
      (k, j) :: (trace_non_crossings M sym sc T gap f i (k - 1) ++
        trace_non_crossings M sym sc T gap f (k + 1) (j - 1)) := by
  simp only [trace_non_crossings, if_neg h1, if_neg h2, h3]

theorem trace_none_branch {M : Model α} {sym : Nat → α} {sc : α → α → Int} {T : Table}
    {gap f i j : Nat} (h1 : ¬ j ≤ i)
    (h2 : ¬ get_table_score T i ((j : Int)) = get_table_score T i ((j : Int) - 1))
    (h3 : findPairK M sym sc T gap i j = none) :
    trace_non_crossings M sym sc T gap (f + 1) i j = [] := by
  simp only [trace_non_crossings, if_neg h1, if_neg h2, h3]

theorem findPairK_mem {M : Model α} {sym : Nat → α} {sc : α → α → Int} {T : Table}
    {gap i j k : Nat} (h : findPairK M sym sc T gap i j = some k) :
    i ≤ k ∧ k + gap < j := by
  have hm := List.mem_of_find?_eq_some h
  rw [List.mem_range'_1] at hm
  omega

theorem findPairK_pred {M : Model α} {sym : Nat → α} {sc : α → α → Int} {T : Table}
    {gap i j k : Nat} (h : findPairK M sym sc T gap i j = some k) :
    tracePred M sym sc T i j k = true :=
  List.find?_some h

theorem find_range_min (p : Nat → Bool) :
    ∀ c s k, (List.range' s c).find? p = some k → ∀ x, s ≤ x → x < k → p x = false := by
  intro c
  induction c with
  | zero => intro s k h; simp at h
  | succ c ih =>
      intro s k h x hsx hxk
      rw [List.range'_succ, List.find?_cons] at h
      cases hp : p s with
      | true =>
          rw [hp] at h
          simp only [Option.some.injEq] at h
          omega
      | false =>
          rw [hp] at h
          rcases eq_or_ne x s with rfl | hxs
          · exact hp
          · exact ih (s + 1) k h x (by omega) hxk

theorem findPairK_min {M : Model α} {sym : Nat → α} {sc : α → α → Int} {T : Table}
    {gap i j k : Nat} (h : findPairK M sym sc T gap i j = some k) :
    ∀ x, i ≤ x → x < k → tracePred M sym sc T i j x = false :=
  find_range_min _ _ _ _ h

theorem trace_fuel_irrel {M : Model α} {sym : Nat → α} {sc : α → α → Int} {T : Table}
    {gap : Nat} : ∀ f g i j, j - i < f → j - i < g →
      trace_non_crossings M sym sc T gap f i j =
        trace_non_crossings M sym sc T gap g i j := by
  intro f
  induction f with
  | zero => intro g i j hf; omega
  | succ f ih =>
      intro g i j hf hg
      cases g with
      | zero => omega
      | succ g =>
          by_cases hji : j ≤ i
          · rw [trace_of_le hji, trace_of_le hji]
          · by_cases heq : get_table_score T i ((j : Int)) = get_table_score T i ((j : Int) - 1)
            · rw [trace_eq_branch hji heq, trace_eq_branch hji heq]
              exact ih g i (j - 1) (by omega) (by omega)
            · cases hfind : findPairK M sym sc T gap i j with
              | none => rw [trace_none_branch hji heq hfind, trace_none_branch hji heq hfind]
              | some k =>
                  have hb := findPairK_mem hfind
                  rw [trace_some_branch hji heq hfind, trace_some_branch hji heq hfind,
                    ih g i (k - 1) (by omega) (by omega),
                    ih g (k + 1) (j - 1) (by omega) (by omega)]

theorem trace_pair_bounds {M : Model α} {sym : Nat → α} {sc : α → α → Int} {T : Table}
    {gap : Nat} : ∀ f i j p, p ∈ trace_non_crossings M sym sc T gap f i j →
      i ≤ p.1 ∧ p.1 < p.2 ∧ p.2 ≤ j := by
  intro f
  induction f with
  | zero => intro i j p h; simp [trace_non_crossings] at h
  | succ f ih =>
      intro i j p h
      by_cases hji : j ≤ i
      · rw [trace_of_le hji] at h; simp at h
      · by_cases heq : get_table_score T i ((j : Int)) = get_table_score T i ((j : Int) - 1)
        · rw [trace_eq_branch hji heq] at h
          have := ih i (j - 1) p h
          exact ⟨this.1, this.2.1, by omega⟩
        · cases hfind : findPairK M sym sc T gap i j with
          | none => rw [trace_none_branch hji heq hfind] at h; simp at h
          | some k =>
              have hb := findPairK_mem hfind
              rw [trace_some_branch hji heq hfind] at h
              rcases List.mem_cons.mp h with rfl | h2
              · exact ⟨by omega, by omega, by omega⟩
              · rcases List.mem_append.mp h2 with h3 | h3
                · have := ih i (k - 1) p h3
                  exact ⟨this.1, this.2.1, by omega⟩
                · have := ih (k + 1) (j - 1) p h3
                  exact ⟨by omega, this.2.1, by omega⟩

theorem trace_pair_legal {M : Model α} {sym : Nat → α} {sc : α → α → Int} {T : Table}
    {gap : Nat} : ∀ f i j p, p ∈ trace_non_crossings M sym sc T gap f i j →
      M.legal (sym p.1) (sym p.2) = true := by
  intro f
  induction f with
  | zero => intro i j p h; simp [trace_non_crossings] at h
  | succ f ih =>
      intro i j p h
      by_cases hji : j ≤ i
      · rw [trace_of_le hji] at h; simp at h
      · by_cases heq : get_table_score T i ((j : Int)) = get_table_score T i ((j : Int) - 1)
        · rw [trace_eq_branch hji heq] at h
          exact ih i (j - 1) p h
        · cases hfind : findPairK M sym sc T gap i j with
          | none => rw [trace_none_branch hji heq hfind] at h; simp at h
          | some k =>
              rw [trace_some_branch hji heq hfind] at h
              rcases List.mem_cons.mp h with rfl | h2
              · have := findPairK_pred hfind
                rw [tracePred, Bool.and_eq_true] at this
                exact this.1
              · rcases List.mem_append.mp h2 with h3 | h3
                · exact ih i (k - 1) p h3
                · exact ih (k + 1) (j - 1) p h3

theorem trace_pairwise_distinctEnds {M : Model α} {sym : Nat → α} {sc : α → α → Int}
    {T : Table} {gap : Nat} : ∀ f i j,
      List.Pairwise distinctEnds (trace_non_crossings M sym sc T gap f i j) := by
  intro f
  induction f with
  | zero => intro i j; simp [trace_non_crossings]
  | succ f ih =>
      intro i j
      by_cases hji : j ≤ i
      · rw [trace_of_le hji]; simp
      · by_cases heq : get_table_score T i ((j : Int)) = get_table_score T i ((j : Int) - 1)
        · rw [trace_eq_branch hji heq]; exact ih i (j - 1)
        · cases hfind : findPairK M sym sc T gap i j with
          | none => rw [trace_none_branch hji heq hfind]; simp
          | some k =>
              have hb := findPairK_mem hfind
              rw [trace_some_branch hji heq hfind]
              rw [List.pairwise_cons]
              constructor
              · intro q hq
                rcases List.mem_append.mp hq with h3 | h3
                · have := trace_pair_bounds f i (k - 1) q h3
                  exact ⟨by omega, by omega, by omega, by omega⟩
                · have := trace_pair_bounds f (k + 1) (j - 1) q h3
                  exact ⟨by omega, by omega, by omega, by omega⟩
              · rw [List.pairwise_append]
                refine ⟨ih i (k - 1), ih (k + 1) (j - 1), fun p hp q hq => ?_⟩
                have h1 := trace_pair_bounds f i (k - 1) p hp
                have h2 := trace_pair_bounds f (k + 1) (j - 1) q hq
                exact ⟨by omega, by omega, by omega, by omega⟩

/-- Helper for the non-crossing invariant, by induction on the fuel. -/
theorem trace_noncross_aux {M : Model α} {sym : Nat → α} {sc : α → α → Int}
    {T : Table} {gap : Nat} : ∀ f i j p q,
      p ∈ trace_non_crossings M sym sc T gap f i j →
      q ∈ trace_non_crossings M sym sc T gap f i j →
      ¬(p.1 < q.1 ∧ q.1 ≤ p.2 ∧ p.2 < q.2) := by
  intro f
  induction f with
  | zero => intro i j p q hp; simp [trace_non_crossings] at hp
  | succ f ih =>
      intro i j p q hp hq
      by_cases hji : j ≤ i
      · rw [trace_of_le hji] at hp; simp at hp
      · by_cases heq : get_table_score T i ((j : Int)) = get_table_score T i ((j : Int) - 1)
        · rw [trace_eq_branch hji heq] at hp hq
          exact ih i (j - 1) p q hp hq
        · cases hfind : findPairK M sym sc T gap i j with
          | none => rw [trace_none_branch hji heq hfind] at hp; simp at hp
          | some k =>
              have hb := findPairK_mem hfind
              rw [trace_some_branch hji heq hfind] at hp hq
              rcases List.mem_cons.mp hp with rfl | hp2
              · rcases List.mem_cons.mp hq with rfl | hq2
                · omega
                · rcases List.mem_append.mp hq2 with h3 | h3
                  · have := trace_pair_bounds f i (k - 1) q h3
                    omega
                  · have := trace_pair_bounds f (k + 1) (j - 1) q h3
                    omega
              · rcases List.mem_append.mp hp2 with hp3 | hp3
                · rcases List.mem_cons.mp hq with rfl | hq2
                  · have := trace_pair_bounds f i (k - 1) p hp3
                    omega
                  · rcases List.mem_append.mp hq2 with hq3 | hq3
                    · exact ih i (k - 1) p q hp3 hq3
                    · have h1 := trace_pair_bounds f i (k - 1) p hp3
                      have h2 := trace_pair_bounds f (k + 1) (j - 1) q hq3
                      omega
                · rcases List.mem_cons.mp hq with rfl | hq2
                  · have := trace_pair_bounds f (k + 1) (j - 1) p hp3
                    omega
                  · rcases List.mem_append.mp hq2 with hq3 | hq3
                    · have h1 := trace_pair_bounds f (k + 1) (j - 1) p hp3
                      have h2 := trace_pair_bounds f i (k - 1) q hq3
                      omega
                    · exact ih (k + 1) (j - 1) p q hp3 hq3

/-! ### Lemmas about the base renderer -/

theorem count_set_bump {l : List Char} {p : Nat} (b c : Char)
    (h : l[p]? = some '.') (hc : c ≠ '.') :
    (l.set p b).count c = l.count c + (if b = c then 1 else 0) := by
  induction l generalizing p with
  | nil => simp at h
  | cons x xs ih =>
      cases p with
      | zero =>
          simp only [List.getElem?_cons_zero, Option.some.injEq] at h
          subst h
          simp only [List.set_cons_zero, List.count_cons, beq_iff_eq]
          rw [if_neg (fun h2 => hc (Eq.symm h2))]
          omega
      | succ p =>
          simp only [List.getElem?_cons_succ] at h
          simp only [List.set_cons_succ, List.count_cons, ih h]
          omega

theorem base_render_untouched :
    ∀ (ps : List (Nat × Nat)) (o : List Char) (p : Nat),
      (∀ q ∈ ps, p ≠ q.1 ∧ p ≠ q.2) →
      (ps.foldl base_render_step o)[p]? = o[p]? := by
  intro ps
  induction ps with
  | nil => intro o p _; rfl
  | cons q ps ih =>
      intro o p hne
      rw [List.foldl_cons]
      have hq := hne q (List.mem_cons_self q ps)
      rw [ih _ p (fun r hr => hne r (List.mem_cons_of_mem q hr))]
      simp only [base_render_step]
      rw [List.getElem?_set_ne (Ne.symm hq.2), List.getElem?_set_ne (Ne.symm hq.1)]

theorem base_render_count :
    ∀ (ps : List (Nat × Nat)) (o : List Char),
      (∀ q ∈ ps, o[q.1]? = some '.' ∧ o[q.2]? = some '.' ∧ q.1 ≠ q.2) →
      List.Pairwise distinctEnds ps →
      (ps.foldl base_render_step o).count '{' = o.count '{' + ps.length ∧
      (ps.foldl base_render_step o).count '}' = o.count '}' + ps.length := by
  intro ps
  induction ps with
  | nil => intro o _ _; simp
  | cons q ps ih =>
      intro o hdot hpw
      rw [List.pairwise_cons] at hpw
      have hq := hdot q (List.mem_cons_self q ps)
      rw [List.foldl_cons]
      have hstep1 : (base_render_step o q)[q.1]? = some '{' := by
        simp only [base_render_step]
        rw [List.getElem?_set_ne (Ne.symm hq.2.2)]
        have : q.1 < o.length := by
          rcases List.getElem?_eq_some.mp hq.1 with ⟨hlt, _⟩
          exact hlt
        exact List.getElem?_set_eq_of_lt _ (by simpa using this)
      have hcount1 : (base_render_step o q).count '{' = o.count '{' + 1 := by
        simp only [base_render_step]
        rw [count_set_bump '}' '{' (by rw [List.getElem?_set_ne hq.2.2]; exact hq.2.1)
          (by decide), count_set_bump '{' '{' hq.1 (by decide)]
        simp
      have hcount2 : (base_render_step o q).count '}' = o.count '}' + 1 := by
        simp only [base_render_step]
        rw [count_set_bump '}' '}' (by rw [List.getElem?_set_ne hq.2.2]; exact hq.2.1)
          (by decide), count_set_bump '{' '}' hq.1 (by decide)]
        simp
      have hdot2 : ∀ r ∈ ps, (base_render_step o q)[r.1]? = some '.' ∧
          (base_render_step o q)[r.2]? = some '.' ∧ r.1 ≠ r.2 := by
        intro r hr
        have hd := hdot r (List.mem_cons_of_mem q hr)
        have hde := hpw.1 r hr
        simp only [base_render_step]
        rw [List.getElem?_set_ne hde.2.2.1, List.getElem?_set_ne hde.1,
          List.getElem?_set_ne hde.2.2.2, List.getElem?_set_ne hde.2.1]
        exact hd
      have := ih (base_render_step o q) hdot2 hpw.2
      rw [this.1, this.2, hcount1, hcount2]
      constructor <;> simp [List.length_cons] <;> omega

/-! ### Lemmas about the stacked decoder -/

theorem charsOK_replicate (n : Nat) : charsOK (List.replicate n '.') := by
  intro c hc
  rw [List.mem_replicate] at hc
  exact Or.inl hc.2

theorem charsOK_set {o : List Char} (h : charsOK o) {c : Char}
    (hc : c = '.' ∨ c = '{' ∨ c = '}') (p : Nat) : charsOK (o.set p c) := by
  intro x hx
  rcases List.mem_or_eq_of_mem_set hx with hx | rfl
  · exact h x hx
  · exact hc

theorem brkAt_set {o : List Char} {p : Nat} (h : brkAt o p) {c : Char}
    (hc : c = '{' ∨ c = '}') (r : Nat) : brkAt (o.set r c) p := by
  rcases eq_or_ne r p with rfl | hrp
  · have hlt : r < o.length := by
      rcases h with h | h <;> exact (List.getElem?_eq_some.mp h).1
    have : (o.set r c)[r]? = some c := List.getElem?_set_eq_of_lt _ (by simpa using hlt)
    rcases hc with rfl | rfl
    · exact Or.inl this
    · exact Or.inr this
  · unfold brkAt
    rw [List.getElem?_set_ne hrp]
    exact h

theorem brkAt_decode_step {o : List Char} {p : Nat} (h : brkAt o p) (q : Nat × Nat) :
    brkAt (decode_step o q) p := by
  unfold decode_step
  apply brkAt_set _ (Or.inr rfl)
  by_cases h3 : ((if (o.set q.1 '{').getD (q.1 + 1) ' ' = '.'
      then (o.set q.1 '{').set (q.1 + 1) '{' else o.set q.1 '{').getD q.2 ' ') = '.'
  · rw [if_pos h3]
    apply brkAt_set _ (Or.inr rfl)
    by_cases h2 : (o.set q.1 '{').getD (q.1 + 1) ' ' = '.'
    · rw [if_pos h2]
      exact brkAt_set (brkAt_set h (Or.inl rfl) _) (Or.inl rfl) _
    · rw [if_neg h2]
      exact brkAt_set h (Or.inl rfl) _
  · rw [if_neg h3]
    by_cases h2 : (o.set q.1 '{').getD (q.1 + 1) ' ' = '.'
    · rw [if_pos h2]
      exact brkAt_set (brkAt_set h (Or.inl rfl) _) (Or.inl rfl) _
    · rw [if_neg h2]
      exact brkAt_set h (Or.inl rfl) _

theorem charsOK_decode_step {o : List Char} (h : charsOK o) (q : Nat × Nat) :
    charsOK (decode_step o q) := by
  unfold decode_step
  apply charsOK_set _ (Or.inr (Or.inr rfl))
  by_cases h3 : ((if (o.set q.1 '{').getD (q.1 + 1) ' ' = '.'
      then (o.set q.1 '{').set (q.1 + 1) '{' else o.set q.1 '{').getD q.2 ' ') = '.'
  · rw [if_pos h3]
    apply charsOK_set _ (Or.inr (Or.inr rfl))
    by_cases h2 : (o.set q.1 '{').getD (q.1 + 1) ' ' = '.'
    · rw [if_pos h2]
      exact charsOK_set (charsOK_set h (Or.inr (Or.inl rfl)) _) (Or.inr (Or.inl rfl)) _
    · rw [if_neg h2]
      exact charsOK_set h (Or.inr (Or.inl rfl)) _
  · rw [if_neg h3]
    by_cases h2 : (o.set q.1 '{').getD (q.1 + 1) ' ' = '.'
    · rw [if_pos h2]
      exact charsOK_set (charsOK_set h (Or.inr (Or.inl rfl)) _) (Or.inr (Or.inl rfl)) _
    · rw [if_neg h2]
      exact charsOK_set h (Or.inr (Or.inl rfl)) _

theorem length_decode_step (o : List Char) (q : Nat × Nat) :
    (decode_step o q).length = o.length := by
  unfold decode_step
  rw [List.length_set]
  by_cases h3 : ((if (o.set q.1 '{').getD (q.1 + 1) ' ' = '.'
      then (o.set q.1 '{').set (q.1 + 1) '{' else o.set q.1 '{').getD q.2 ' ') = '.'
  · rw [if_pos h3, List.length_set]
    by_cases h2 : (o.set q.1 '{').getD (q.1 + 1) ' ' = '.'
    · rw [if_pos h2, List.length_set, List.length_set]
    · rw [if_neg h2, List.length_set]
  · rw [if_neg h3]
    by_cases h2 : (o.set q.1 '{').getD (q.1 + 1) ' ' = '.'
    · rw [if_pos h2, List.length_set, List.length_set]
    · rw [if_neg h2, List.length_set]

theorem decode_step_untouched {o : List Char} {p : Nat} {q : Nat × Nat}
    (h : p ≠ q.1 ∧ p ≠ q.1 + 1 ∧ p ≠ q.2 ∧ p ≠ q.2 + 1) :
    (decode_step o q)[p]? = o[p]? := by
  unfold decode_step
  rw [List.getElem?_set_ne (Ne.symm h.2.2.2)]
  by_cases h3 : ((if (o.set q.1 '{').getD (q.1 + 1) ' ' = '.'
      then (o.set q.1 '{').set (q.1 + 1) '{' else o.set q.1 '{').getD q.2 ' ') = '.'
  · rw [if_pos h3, List.getElem?_set_ne (Ne.symm h.2.2.1)]
    by_cases h2 : (o.set q.1 '{').getD (q.1 + 1) ' ' = '.'
    · rw [if_pos h2, List.getElem?_set_ne (Ne.symm h.2.1), List.getElem?_set_ne (Ne.symm h.1)]
    · rw [if_neg h2, List.getElem?_set_ne (Ne.symm h.1)]
  · rw [if_neg h3]
    by_cases h2 : (o.set q.1 '{').getD (q.1 + 1) ' ' = '.'
    · rw [if_pos h2, List.getElem?_set_ne (Ne.symm h.2.1), List.getElem?_set_ne (Ne.symm h.1)]
    · rw [if_neg h2, List.getElem?_set_ne (Ne.symm h.1)]

theorem decode_untouched :
    ∀ (ps : List (Nat × Nat)) (o : List Char) (p : Nat),
      (∀ q ∈ ps, p ≠ q.1 ∧ p ≠ q.1 + 1 ∧ p ≠ q.2 ∧ p ≠ q.2 + 1) →
      (ps.foldl decode_step o)[p]? = o[p]? := by
  intro ps
  induction ps with
  | nil => intro o p _; rfl
  | cons q ps ih =>
      intro o p hne
      rw [List.foldl_cons, ih _ p (fun r hr => hne r (List.mem_cons_of_mem q hr))]
      exact decode_step_untouched (hne q (List.mem_cons_self q ps))

theorem decode_step_marks {o : List Char} {q : Nat × Nat} (hok : charsOK o)
    (h1 : q.1 < o.length) (h2 : q.1 + 1 < o.length) (h3 : q.2 < o.length)
    (h4 : q.2 + 1 < o.length) :
    brkAt (decode_step o q) q.1 ∧ brkAt (decode_step o q) (q.1 + 1) ∧
      brkAt (decode_step o q) q.2 ∧ brkAt (decode_step o q) (q.2 + 1) := by
  have getD_some : ∀ (l : List Char) (r : Nat), r < l.length → l[r]? = some (l.getD r ' ') := by
    intro l r hr
    rw [List.getD_eq_getElem?_getD, List.getElem?_eq_getElem hr]
    rfl
  have hb1 : brkAt (o.set q.1 '{') q.1 :=
    Or.inl (List.getElem?_set_eq_of_lt _ (by simpa using h1))
  have hok1 : charsOK (o.set q.1 '{') := charsOK_set hok (Or.inr (Or.inl rfl)) _
  set o1 := o.set q.1 '{' with ho1
  have hlen1 : o1.length = o.length := List.length_set ..
  -- position q.1 + 1 after the conditional promotion
  have hb2 : brkAt (if o1.getD (q.1 + 1) ' ' = '.' then o1.set (q.1 + 1) '{' else o1)
      (q.1 + 1) := by
    by_cases hc : o1.getD (q.1 + 1) ' ' = '.'
    · rw [if_pos hc]
      exact Or.inl (List.getElem?_set_eq_of_lt _ (by simp only [hlen1]; simpa using h2))
    · rw [if_neg hc]
      have hsome := getD_some o1 (q.1 + 1) (by omega)
      have hmem : o1.getD (q.1 + 1) ' ' ∈ o1 := by
        have := List.getElem?_eq_some.mp hsome
        rcases this with ⟨hlt, hval⟩
        rw [← hval]
        exact List.getElem_mem hlt
      rcases hok1 _ hmem with hd | hd | hd
      · exact absurd hd hc
      · exact Or.inl (by rw [hsome, hd])
      · exact Or.inr (by rw [hsome, hd])
  have hb1' : brkAt (if o1.getD (q.1 + 1) ' ' = '.' then o1.set (q.1 + 1) '{' else o1) q.1 := by
    by_cases hc : o1.getD (q.1 + 1) ' ' = '.'
    · rw [if_pos hc]; exact brkAt_set hb1 (Or.inl rfl) _
    · rw [if_neg hc]; exact hb1
  have hok2 : charsOK (if o1.getD (q.1 + 1) ' ' = '.' then o1.set (q.1 + 1) '{' else o1) := by
    by_cases hc : o1.getD (q.1 + 1) ' ' = '.'
    · rw [if_pos hc]; exact charsOK_set hok1 (Or.inr (Or.inl rfl)) _
    · rw [if_neg hc]; exact hok1
  set o2 := if o1.getD (q.1 + 1) ' ' = '.' then o1.set (q.1 + 1) '{' else o1 with ho2
  have hlen2 : o2.length = o.length := by
    rw [ho2]
    by_cases hc : o1.getD (q.1 + 1) ' ' = '.'
    · rw [if_pos hc, List.length_set, hlen1]
    · rw [if_neg hc, hlen1]
  -- position q.2 after the conditional close mark
  have hb3 : brkAt (if o2.getD q.2 ' ' = '.' then o2.set q.2 '}' else o2) q.2 := by
    by_cases hc : o2.getD q.2 ' ' = '.'
    · rw [if_pos hc]
      exact Or.inr (List.getElem?_set_eq_of_lt _ (by simp only [hlen2]; simpa using h3))
    · rw [if_neg hc]
      have hsome := getD_some o2 q.2 (by omega)
      have hmem : o2.getD q.2 ' ' ∈ o2 := by
        rcases List.getElem?_eq_some.mp hsome with ⟨hlt, hval⟩
        rw [← hval]
        exact List.getElem_mem hlt
      rcases hok2 _ hmem with hd | hd | hd
      · exact absurd hd hc
      · exact Or.inl (by rw [hsome, hd])
      · exact Or.inr (by rw [hsome, hd])
  have hb1'' : brkAt (if o2.getD q.2 ' ' = '.' then o2.set q.2 '}' else o2) q.1 := by
    by_cases hc : o2.getD q.2 ' ' = '.'
    · rw [if_pos hc]; exact brkAt_set hb1' (Or.inr rfl) _
    · rw [if_neg hc]; exact hb1'
  have hb2' : brkAt (if o2.getD q.2 ' ' = '.' then o2.set q.2 '}' else o2) (q.1 + 1) := by
    by_cases hc : o2.getD q.2 ' ' = '.'
    · rw [if_pos hc]; exact brkAt_set hb2 (Or.inr rfl) _
    · rw [if_neg hc]; exact hb2
  set o3 := if o2.getD q.2 ' ' = '.' then o2.set q.2 '}' else o2 with ho3
  have hlen3 : o3.length = o.length := by
    rw [ho3]
    by_cases hc : o2.getD q.2 ' ' = '.'
    · rw [if_pos hc, List.length_set, hlen2]
    · rw [if_neg hc, hlen2]
  have hstep : decode_step o q = o3.set (q.2 + 1) '}' := rfl
  rw [hstep]
  refine ⟨brkAt_set hb1'' (Or.inr rfl) _, brkAt_set hb2' (Or.inr rfl) _,
    brkAt_set hb3 (Or.inr rfl) _,
    Or.inr (List.getElem?_set_eq_of_lt _ (by simp only [hlen3]; simpa using h4))⟩

theorem length_decode_fold :
    ∀ (ps : List (Nat × Nat)) (o : List Char), (ps.foldl decode_step o).length = o.length := by
  intro ps
  induction ps with
  | nil => intro o; rfl
  | cons q ps ih => intro o; rw [List.foldl_cons, ih, length_decode_step]

theorem charsOK_decode_fold :
    ∀ (ps : List (Nat × Nat)) (o : List Char), charsOK o → charsOK (ps.foldl decode_step o) := by
  intro ps
  induction ps with
  | nil => intro o h; exact h
  | cons q ps ih => intro o h; rw [List.foldl_cons]; exact ih _ (charsOK_decode_step h q)

theorem brkAt_decode_fold :
    ∀ (ps : List (Nat × Nat)) (o : List Char) (p : Nat), brkAt o p →
      brkAt (ps.foldl decode_step o) p := by
  intro ps
  induction ps with
  | nil => intro o p h; exact h
  | cons q ps ih => intro o p h; rw [List.foldl_cons]; exact ih _ _ (brkAt_decode_step h q)

theorem decode_marks_core :
    ∀ (ps : List (Nat × Nat)) (o : List Char), charsOK o →
      (∀ q ∈ ps, q.1 < o.length ∧ q.1 + 1 < o.length ∧ q.2 < o.length ∧
        q.2 + 1 < o.length ∧ q.1 < q.2) →
      ∀ q ∈ ps, brkAt (ps.foldl decode_step o) q.1 ∧
        brkAt (ps.foldl decode_step o) (q.1 + 1) ∧
        brkAt (ps.foldl decode_step o) q.2 ∧
        brkAt (ps.foldl decode_step o) (q.2 + 1) := by
  intro ps
  induction ps with
  | nil => intro o _ _ q hq; simp at hq
  | cons r ps ih =>
      intro o hok hbnd q hq
      rw [List.foldl_cons]
      rcases List.mem_cons.mp hq with rfl | hq2
      · have hb := hbnd q (List.mem_cons_self q ps)
        have := decode_step_marks hok hb.1 hb.2.1 hb.2.2.1 hb.2.2.2.1
        exact ⟨brkAt_decode_fold ps _ _ this.1, brkAt_decode_fold ps _ _ this.2.1,
          brkAt_decode_fold ps _ _ this.2.2.1, brkAt_decode_fold ps _ _ this.2.2.2⟩
      · refine ih (decode_step o r) (charsOK_decode_step hok r) ?_ q hq2
        intro q2 hq3
        have := hbnd q2 (List.mem_cons_of_mem r hq3)
        rw [length_decode_step]
        exact this

/-! ### Dinucleotide helpers for the stacked variant -/

theorem n_base_pairs_getD {s : List Char} {j : Nat} (hj : j < s.length) (d : Dinuc) :
    (n_base_pairs s).getD j d =
      if j = s.length - 1 then (symOf s j, none)
      else (symOf s j, some (symOf s (j + 1))) := by
  simp only [n_base_pairs, List.getD_eq_getElem?_getD, List.getElem?_map,
    List.getElem?_range hj, Option.map_some', Option.getD_some, symOf]

theorem dinucIndex?_chars {d : Dinuc} {x : Nat} (h : dinucIndex? d = some x) :
    ∃ a b, d = (a, some b) ∧ a ∈ RECOG ∧ b ∈ RECOG := by
  obtain ⟨a, ob⟩ := d
  cases ob with
  | none => simp [dinucIndex?] at h
  | some b =>
      refine ⟨a, b, rfl, ?_⟩
      simp only [dinucIndex?, Option.map_eq_some'] at h
      obtain ⟨q, hq, _⟩ := h
      have hmem := List.mem_of_find?_eq_some hq
      have hpq := List.find?_some hq
      rw [beq_iff_eq] at hpq
      simp only [PAIR_MATRIX_MAPPING, List.mem_cons, List.not_mem_nil, or_false] at hmem
      rcases hmem with h1 | h1 | h1 | h1 | h1 | h1 <;>
        (subst h1; simp only [Prod.mk.injEq] at hpq; obtain ⟨ha, hb⟩ := hpq;
          cases ha; cases hb; exact ⟨by decide, by decide⟩)

theorem dinuc_legal_chars {s : List Char} {i : Nat} (hi : i < s.length)
    (h : isLegalDinuc (dsymOf s i) = true) :
    i + 2 ≤ s.length ∧ symOf s i ∈ RECOG ∧ symOf s (i + 1) ∈ RECOG := by
  rw [isLegalDinuc, Option.isSome_iff_exists] at h
  obtain ⟨x, hx⟩ := h
  obtain ⟨a, b, hd, ha, hb⟩ := dinucIndex?_chars hx
  rw [dsymOf, n_base_pairs_getD hi] at hd
  by_cases hlast : i = s.length - 1
  · rw [if_pos hlast] at hd
    exact absurd (congrArg Prod.snd hd) (by simp)
  · rw [if_neg hlast] at hd
    have h1 : symOf s i = a := congrArg Prod.fst hd
    have h2 : some (symOf s (i + 1)) = some b := congrArg Prod.snd hd
    simp only [Option.some.injEq] at h2
    rw [h1, h2]
    exact ⟨by omega, ha, hb⟩

/-- Every pair recorded by the stacked traceback closes at a dinucleotide
position whose mapping entry exists, hence strictly before the last position:
`j ≤ n - 2`, and all four decoder write positions are in range. -/
theorem stacked_pair_bound_core {s : List Char} {k j : Nat}
    (h : (k, j) ∈ stackedPairs s) :
    k < j ∧ j + 2 ≤ s.length := by
  have hb := trace_pair_bounds _ _ _ _ h
  have hleg := trace_pair_legal _ _ _ _ h
  simp only [stackedFillModel, Bool.and_eq_true] at hleg
  have hn : 1 ≤ s.length := by
    by_contra hn
    have : s.length = 0 := by omega
    rw [stackedPairs, this] at h
    simp [trace_non_crossings] at h
  have hj : j < s.length := by omega
  have := dinuc_legal_chars hj hleg.2
  exact ⟨by omega, this.1⟩

/-! ### Alphabet facts about the concrete base-pair maps -/

theorem legal_pairs_chars :
    ∀ x y, (baseModel LEGAL_PAIRS).legal x y = true → x ∈ RECOG ∧ y ∈ RECOG := by
  intro x y h
  have h2 : (dictLookup LEGAL_PAIRS (x, y)).isSome = true := h
  rw [Option.isSome_iff_exists] at h2
  obtain ⟨v, hv⟩ := h2
  simp only [dictLookup, Option.map_eq_some'] at hv
  obtain ⟨q, hq, _⟩ := hv
  have hmem := List.mem_of_find?_eq_some hq
  have hpq := List.find?_some hq
  rw [beq_iff_eq] at hpq
  simp only [LEGAL_PAIRS, List.mem_cons, List.not_mem_nil, or_false] at hmem
  rcases hmem with h1 | h1 | h1 | h1 <;>
    (subst h1; simp only [Prod.mk.injEq] at hpq; obtain ⟨ha, hb⟩ := hpq;
      cases ha; cases hb; exact ⟨by decide, by decide⟩)

theorem legal_pairs_energy_chars :
    ∀ x y, (baseModel LEGAL_PAIRS_ENERGY).legal x y = true → x ∈ RECOG ∧ y ∈ RECOG := by
  intro x y h
  have h2 : (dictLookup LEGAL_PAIRS_ENERGY (x, y)).isSome = true := h
  rw [Option.isSome_iff_exists] at h2
  obtain ⟨v, hv⟩ := h2
  simp only [dictLookup, Option.map_eq_some'] at hv
  obtain ⟨q, hq, _⟩ := hv
  have hmem := List.mem_of_find?_eq_some hq
  have hpq := List.find?_some hq
  rw [beq_iff_eq] at hpq
  simp only [LEGAL_PAIRS_ENERGY, List.mem_cons, List.not_mem_nil, or_false] at hmem
  rcases hmem with h1 | h1 | h1 | h1 <;>
    (subst h1; simp only [Prod.mk.injEq] at hpq; obtain ⟨ha, hb⟩ := hpq;
      cases ha; cases hb; exact ⟨by decide, by decide⟩)

/-! ### Claim theorems -/

/-- Claim C1, counterexample.  Flat model, gap 1, sequence `ACUACU`: the pair
set `{(0,2), (3,5)}` is admissible (legal, separated, non-crossing) and scores
2, yet `fill_table` leaves `table[0][5] = 1`; moreover the bifurcation term
`table[0][2] + table[3][5] = 2` exceeds the cell, so the cell does not satisfy
the four-way max recurrence either.  (The fill commits to the forced pairing
branch whenever the end pair is legal, skipping the unpaired and bifurcation
alternatives.) -/
theorem fill_four_way_counterexample :
    specPairSetOK LEGAL_PAIRS ("ACUACU".toList) 1 0 5 [(0, 2), (3, 5)] = true ∧
    specPairSetScore LEGAL_PAIRS ("ACUACU".toList) [(0, 2), (3, 5)] = 2 ∧
    tget (baseTable LEGAL_PAIRS ("ACUACU".toList) 1) 0 5 = 1 ∧
    tget (baseTable LEGAL_PAIRS ("ACUACU".toList) 1) 0 2 +
      tget (baseTable LEGAL_PAIRS ("ACUACU".toList) 1) 3 5 = 2 := by
  refine ⟨by decide, by decide, by decide, by decide⟩

/-- Claim C1, amended: after `fill_table` completes, each cell `(i, j)` with
`i ≤ j < n` is `0` when `j - i ≤ gap`, equals the forced pairing value
`score + table[i+1][j-1]` when the end pair is legal, and otherwise equals the
maximum of the i-unpaired, j-unpaired and bifurcation terms.  (This is the
recurrence the code actually implements: the pairing branch is exclusive, not
one candidate among four.) -/
theorem fill_recurrence (M : Model α) (sym : Nat → α) (gap n i j : Nat)
    (h1 : i ≤ j) (h2 : j < n) :
    tget (fill_table M sym gap n (initialize_table n)) i j =
      if j - i ≤ gap then 0
      else if M.legal (sym i) (sym j) then
        M.score (sym i) (sym j) +
          tget (fill_table M sym gap n (initialize_table n)) (i + 1) (j - 1)
      else
        pyMax [tget (fill_table M sym gap n (initialize_table n)) (i + 1) j,
          tget (fill_table M sym gap n (initialize_table n)) i (j - 1),
          pyMax ((List.range' i (j - i)).map (fun k =>
            tget (fill_table M sym gap n (initialize_table n)) i k +
              tget (fill_table M sym gap n (initialize_table n)) (k + 1) j))] := by
  have hfe := fill_table_eq_tblR M sym gap n
  rw [hfe i j (by omega) h2]
  by_cases hgap : j - i ≤ gap
  · rw [if_pos hgap]
    rcases eq_or_lt_of_le h1 with rfl | hij
    · rw [tblR_of_le (le_refl _), if_pos rfl]
    · exact tblR_gap hij hgap
  · rw [if_neg hgap]
    have hij : i < j := by omega
    by_cases hleg : M.legal (sym i) (sym j) = true
    · rw [if_pos hleg, tblR_legal hij (by omega) hleg,
        hfe (i + 1) (j - 1) (by omega) (by omega)]
    · rw [if_neg hleg, tblR_illegal hij (by omega) (by simpa using hleg),
        hfe (i + 1) j (by omega) h2, hfe i (j - 1) (by omega) (by omega)]
      have e3 : (List.range' i (j - i)).map (fun k =>
          tget (fill_table M sym gap n (initialize_table n)) i k +
            tget (fill_table M sym gap n (initialize_table n)) (k + 1) j) =
          (List.range' i (j - i)).map
            (fun k => tblR M sym gap i k + tblR M sym gap (k + 1) j) := by
        refine List.map_congr_left (fun k hk => ?_)
        rw [List.mem_range'_1] at hk
        rw [hfe i k (by omega) (by omega), hfe (k + 1) j (by omega) h2]
      rw [e3]

/-- Witness for `fill_recurrence` at a concrete input: flat model, `GCACG`,
gap 0, cell (0, 4). -/
theorem fill_recurrence_witness :
    tget (fill_table (baseModel LEGAL_PAIRS) (symOf ("GCACG".toList)) 0 5
        (initialize_table 5)) 0 4 =
      if 4 - 0 ≤ 0 then 0
      else if (baseModel LEGAL_PAIRS).legal (symOf ("GCACG".toList) 0)
          (symOf ("GCACG".toList) 4) then
        (baseModel LEGAL_PAIRS).score (symOf ("GCACG".toList) 0) (symOf ("GCACG".toList) 4) +
          tget (fill_table (baseModel LEGAL_PAIRS) (symOf ("GCACG".toList)) 0 5
            (initialize_table 5)) (0 + 1) (4 - 1)
      else
        pyMax [tget (fill_table (baseModel LEGAL_PAIRS) (symOf ("GCACG".toList)) 0 5
            (initialize_table 5)) (0 + 1) 4,
          tget (fill_table (baseModel LEGAL_PAIRS) (symOf ("GCACG".toList)) 0 5
            (initialize_table 5)) 0 (4 - 1),
          pyMax ((List.range' 0 (4 - 0)).map (fun k =>
            tget (fill_table (baseModel LEGAL_PAIRS) (symOf ("GCACG".toList)) 0 5
              (initialize_table 5)) 0 k +
              tget (fill_table (baseModel LEGAL_PAIRS) (symOf ("GCACG".toList)) 0 5
                (initialize_table 5)) (k + 1) 4))] :=
  fill_recurrence (baseModel LEGAL_PAIRS) (symOf ("GCACG".toList)) 0 5 0 4
    (by decide) (by decide)

/-- Claim C8, confirmed: with the weighted map (`A-U` scoring 2, `G-C`
scoring 3) and gap 0, the pipeline on `AUGC` fills `table[0][3] = 5`, and the
score written by `write_output` is 5. -/
theorem weighted_AUGC_score :
    tget (baseTable LEGAL_PAIRS_ENERGY ("AUGC".toList) 0) 0 3 = 5 ∧
    write_output_score (baseTable LEGAL_PAIRS_ENERGY ("AUGC".toList) 0) 4 = some 5 := by
  refine ⟨by decide, by decide⟩

/-- Claim C2, counterexample.  Weighted model, gap 1, sequence `ACAGCAGU`:
the filled table has `table[0][7] = 5` but `table[0][6] = 6` and
`table[1][7] = 6`, so both monotonicity inequalities fail at cell (0, 7)
(whose end pair A-U is legal, forcing the pairing branch). -/
theorem fill_mono_counterexample :
    tget (baseTable LEGAL_PAIRS_ENERGY ("ACAGCAGU".toList) 1) 0 7 <
      tget (baseTable LEGAL_PAIRS_ENERGY ("ACAGCAGU".toList) 1) 0 6 ∧
    tget (baseTable LEGAL_PAIRS_ENERGY ("ACAGCAGU".toList) 1) 0 7 <
      tget (baseTable LEGAL_PAIRS_ENERGY ("ACAGCAGU".toList) 1) 1 7 ∧
    tget (baseTable LEGAL_PAIRS_ENERGY ("ACAGCAGU".toList) 1) 0 7 = 5 ∧
    tget (baseTable LEGAL_PAIRS_ENERGY ("ACAGCAGU".toList) 1) 0 6 = 6 ∧
    tget (baseTable LEGAL_PAIRS_ENERGY ("ACAGCAGU".toList) 1) 1 7 = 6 := by
  refine ⟨by decide, by decide, by decide, by decide, by decide⟩

/-- Claim C2, amended: the monotonicity inequalities
`table[i][j] ≥ table[i][j-1]` and `table[i][j] ≥ table[i+1][j]` (boundary
references resolving to 0) hold at every cell whose band distance is within
the gap and at every cell whose end pair is not legal; at legal-end cells the
forced pairing branch can decrease the value below a neighbour (see
`fill_mono_counterexample`). -/
theorem fill_mono_outside_legal (M : Model α) (sym : Nat → α) (gap n i j : Nat)
    (h1 : i ≤ j) (h2 : j < n)
    (hcase : j - i ≤ gap ∨ M.legal (sym i) (sym j) = false) :
    get_table_score (fill_table M sym gap n (initialize_table n)) i ((j : Int) - 1) ≤
      tget (fill_table M sym gap n (initialize_table n)) i j ∧
    (if i < j then tget (fill_table M sym gap n (initialize_table n)) (i + 1) j else 0) ≤
      tget (fill_table M sym gap n (initialize_table n)) i j := by
  have hfe := fill_table_eq_tblR M sym gap n
  rcases eq_or_lt_of_le h1 with rfl | hij
  · have hdiag : tget (fill_table M sym gap n (initialize_table n)) i i = 0 := by
      rw [hfe i i (by omega) h2, tblR_of_le (le_refl _), if_pos rfl]
    rw [hdiag]
    constructor
    · rcases Nat.eq_zero_or_pos i with rfl | hpos
      · rw [get_table_score, if_pos (by decide)]
      · rw [get_table_score, if_neg (by omega),
          show ((i : Int) - 1).toNat = i - 1 by omega,
          hfe i (i - 1) (by omega) (by omega), tblR_of_le (by omega),
          if_neg (by omega), if_pos (by omega)]
    · rw [if_neg (by omega)]
  · have hcol : get_table_score (fill_table M sym gap n (initialize_table n)) i
        ((j : Int) - 1) = tblR M sym gap i (j - 1) := by
      rw [get_table_score, if_neg (by omega), show ((j : Int) - 1).toNat = j - 1 by omega,
        hfe i (j - 1) (by omega) (by omega)]
    have hrow : (if i < j then
        tget (fill_table M sym gap n (initialize_table n)) (i + 1) j else 0) =
        tblR M sym gap (i + 1) j := by
      rw [if_pos hij, hfe (i + 1) j (by omega) h2]
    rw [hcol, hrow, hfe i j (by omega) h2]
    by_cases hgap : j - i ≤ gap
    · have hc1 : tblR M sym gap i (j - 1) = 0 := by
        rcases eq_or_lt_of_le (show i ≤ j - 1 by omega) with heq | hlt
        · rw [← heq, tblR_of_le (le_refl _), if_pos rfl]
        · exact tblR_gap hlt (by omega)
      have hc2 : tblR M sym gap (i + 1) j = 0 := by
        rcases eq_or_lt_of_le (show i + 1 ≤ j by omega) with heq | hlt
        · rw [heq, tblR_of_le (le_refl _), if_pos rfl]
        · exact tblR_gap hlt (by omega)
      rw [tblR_gap hij hgap, hc1, hc2]
      exact ⟨le_refl _, le_refl _⟩
    · have hleg : M.legal (sym i) (sym j) = false := by
        rcases hcase with hcase | hcase
        · omega
        · exact hcase
      rw [tblR_illegal hij (by omega) hleg]
      constructor
      · exact le_pyMax_of_mem (List.mem_cons_of_mem _ (List.mem_cons_self _ _))
      · exact le_pyMax_of_mem (List.mem_cons_self _ _)

/-- Witness for `fill_mono_outside_legal` at a concrete input: flat model,
`GCACG`, gap 0, cell (0, 2) (end pair G-A illegal). -/
theorem fill_mono_outside_legal_witness :
    get_table_score (fill_table (baseModel LEGAL_PAIRS) (symOf ("GCACG".toList)) 0 5
        (initialize_table 5)) 0 ((2 : Int) - 1) ≤
      tget (fill_table (baseModel LEGAL_PAIRS) (symOf ("GCACG".toList)) 0 5
        (initialize_table 5)) 0 2 ∧
    (if 0 < 2 then tget (fill_table (baseModel LEGAL_PAIRS) (symOf ("GCACG".toList)) 0 5
        (initialize_table 5)) (0 + 1) 2 else 0) ≤
      tget (fill_table (baseModel LEGAL_PAIRS) (symOf ("GCACG".toList)) 0 5
        (initialize_table 5)) 0 2 :=
  fill_mono_outside_legal (baseModel LEGAL_PAIRS) (symOf ("GCACG".toList)) 0 5 0 2
    (by decide) (by decide) (Or.inr (by decide))

/-- Claim C3, code bug: on the empty sequence the table fill and the
traceback complete and record nothing, but `write_output` evaluates
`self.table[0][len(self.n_bases) - 1]`, and `table[0]` on the empty table
raises `IndexError` (modelled by `none`) instead of reporting score 0. -/
theorem empty_sequence_write_output_raises :
    ∀ (m : List ((Char × Char) × Int)) (gap : Nat),
      write_output_score (baseTable m [] gap) 0 = none ∧
      basePairs m [] gap = [] ∧
      baseOutput m [] gap = [] :=
  fun _ _ => ⟨rfl, rfl, rfl⟩

/-- Claim C4, confirmed: one step of `trace_non_crossings` on an interval with
`j > i`.  If the cell equals its left neighbour the walk recurses on
`[i, j-1]` and records no pair closing at `j`; otherwise it commits to the
first (smallest) `k` of `range(i, j - gap)` whose pair is legal and satisfies
the score decomposition, records exactly `(k, j)`, and recurses on `[i, k-1]`
and `[k+1, j-1]`; when the scan accepts no `k`, the interval contributes no
pair.  The `fuel` argument is an artifact of the embedding; any
`fuel > j - i` computes the function. -/
theorem trace_step_characterization (M : Model α) (sym : Nat → α) (sc : α → α → Int)
    (T : Table) (gap fuel i j : Nat) (hij : i < j) (hfuel : j - i < fuel) :
    (get_table_score T i ((j : Int)) = get_table_score T i ((j : Int) - 1) →
      trace_non_crossings M sym sc T gap fuel i j =
        trace_non_crossings M sym sc T gap fuel i (j - 1) ∧
      ∀ p ∈ trace_non_crossings M sym sc T gap fuel i j, p.2 < j) ∧
    (get_table_score T i ((j : Int)) ≠ get_table_score T i ((j : Int) - 1) →
      (∀ k, findPairK M sym sc T gap i j = some k →
        i ≤ k ∧ k + gap < j ∧
        M.legal (sym k) (sym j) = true ∧
        get_table_score T i ((j : Int)) =
          get_table_score T i ((k : Int) - 1) + get_table_score T (k + 1) ((j : Int) - 1) +
            sc (sym k) (sym j) ∧
        (∀ x, i ≤ x → x < k → ¬(M.legal (sym x) (sym j) = true ∧
          get_table_score T i ((j : Int)) =
            get_table_score T i ((x : Int) - 1) +
              get_table_score T (x + 1) ((j : Int) - 1) + sc (sym x) (sym j))) ∧
        trace_non_crossings M sym sc T gap fuel i j =
          (k, j) :: (trace_non_crossings M sym sc T gap fuel i (k - 1) ++
            trace_non_crossings M sym sc T gap fuel (k + 1) (j - 1))) ∧
      (findPairK M sym sc T gap i j = none →
        trace_non_crossings M sym sc T gap fuel i j = [])) := by
  cases fuel with
  | zero => omega
  | succ f =>
      constructor
      · intro heq
        have he : trace_non_crossings M sym sc T gap (f + 1) i j =
            trace_non_crossings M sym sc T gap (f + 1) i (j - 1) := by
          rw [trace_eq_branch (by omega) heq]
          exact trace_fuel_irrel f (f + 1) i (j - 1) (by omega) (by omega)
        refine ⟨he, fun p hp => ?_⟩
        rw [he] at hp
        have := trace_pair_bounds (f + 1) i (j - 1) p hp
        omega
      · intro hne
        constructor
        · intro k hk
          have hb := findPairK_mem hk
          have hpred := findPairK_pred hk
          rw [tracePred, Bool.and_eq_true, decide_eq_true_iff] at hpred
          refine ⟨hb.1, hb.2, hpred.1, hpred.2, ?_, ?_⟩
          · intro x hx1 hx2 hcontra
            have hf := findPairK_min hk x hx1 hx2
            rw [tracePred] at hf
            rw [hcontra.1] at hf
            simp only [Bool.true_and, decide_eq_false_iff_not] at hf
            exact hf hcontra.2
          · rw [trace_some_branch (by omega) hne hk,
              trace_fuel_irrel f (f + 1) i (k - 1) (by omega) (by omega),
              trace_fuel_irrel f (f + 1) (k + 1) (j - 1) (by omega) (by omega)]
        · intro hk
          exact trace_none_branch (by omega) hne hk

/-- Witness for `trace_step_characterization`: flat model, `GCACG`, gap 0,
interval (0, 4); the scan commits to k = 3 and the walk splits as stated. -/
theorem trace_step_characterization_witness :
    trace_non_crossings (baseModel LEGAL_PAIRS) (symOf ("GCACG".toList))
        (baseModel LEGAL_PAIRS).score (baseTable LEGAL_PAIRS ("GCACG".toList) 0) 0 5 0 4 =
      (3, 4) :: (trace_non_crossings (baseModel LEGAL_PAIRS) (symOf ("GCACG".toList))
          (baseModel LEGAL_PAIRS).score (baseTable LEGAL_PAIRS ("GCACG".toList) 0) 0 5 0 2 ++
        trace_non_crossings (baseModel LEGAL_PAIRS) (symOf ("GCACG".toList))
          (baseModel LEGAL_PAIRS).score (baseTable LEGAL_PAIRS ("GCACG".toList) 0) 0 5 4 3) :=
  (((trace_step_characterization (baseModel LEGAL_PAIRS) (symOf ("GCACG".toList))
      (baseModel LEGAL_PAIRS).score (baseTable LEGAL_PAIRS ("GCACG".toList) 0) 0 5 0 4
      (by decide) (by decide)).2 (by decide)).1 3 (by decide)).2.2.2.2.2

/-- Claim C5, confirmed: for every model, symbol access, trace score, table,
gap and interval, the pair set recorded by `trace_non_crossings` is
non-crossing: no two recorded pairs satisfy `k1 < k2 ≤ j1 < j2`.  This covers
both the base and the stacked instantiation of the walk. -/
theorem trace_noncrossing (M : Model α) (sym : Nat → α) (sc : α → α → Int)
    (T : Table) (gap fuel i j : Nat) (p q : Nat × Nat)
    (hp : p ∈ trace_non_crossings M sym sc T gap fuel i j)
    (hq : q ∈ trace_non_crossings M sym sc T gap fuel i j) :
    ¬(p.1 < q.1 ∧ q.1 ≤ p.2 ∧ p.2 < q.2) :=
  trace_noncross_aux fuel i j p q hp hq

/-- Witness for `trace_noncrossing`: the run on `GCACG` (flat model, gap 0)
records the pairs (3, 4) and (0, 1), which do not cross. -/
theorem trace_noncrossing_witness :
    (3, 4) ∈ basePairs LEGAL_PAIRS ("GCACG".toList) 0 ∧
    (0, 1) ∈ basePairs LEGAL_PAIRS ("GCACG".toList) 0 ∧
    ¬((3 : Nat) < 0 ∧ (0 : Nat) ≤ 4 ∧ (4 : Nat) < 1) :=
  ⟨by decide, by decide,
    trace_noncrossing (baseModel LEGAL_PAIRS) (symOf ("GCACG".toList))
      (baseModel LEGAL_PAIRS).score (baseTable LEGAL_PAIRS ("GCACG".toList) 0) 0 5 0 4
      (3, 4) (0, 1) (by decide) (by decide)⟩

/-- Claim C6, counterexample.  The stacked run on `AUA` records the single
pair (0, 1) but renders `{{}`: two `{` characters and one `}`, so in the
stacked variant neither count equals the number of recorded pairs, and the
two counts differ from each other. -/
theorem stacked_counts_counterexample :
    stackedPairs ("AUA".toList) = [(0, 1)] ∧
    stackedOutput ("AUA".toList) = ['{', '{', '}'] ∧
    (stackedOutput ("AUA".toList)).count '{' = 2 ∧
    (stackedOutput ("AUA".toList)).count '}' = 1 ∧
    (stackedPairs ("AUA".toList)).length = 1 := by
  refine ⟨by decide, by decide, by decide, by decide, by decide⟩

/-- Claim C6, amended: in the base variant the rendered annotation contains
exactly as many `{` as `}`, and both counts equal the number of recorded
pairs (each recorded pair marks exactly its two endpoints, and all endpoints
are distinct); the stacked decoder's promotion rules break this equality (see
`stacked_counts_counterexample`). -/
theorem base_output_counts (m : List ((Char × Char) × Int)) (s : List Char) (gap : Nat) :
    (baseOutput m s gap).count '{' = (basePairs m s gap).length ∧
    (baseOutput m s gap).count '}' = (basePairs m s gap).length := by
  have hpw : List.Pairwise distinctEnds (basePairs m s gap) :=
    trace_pairwise_distinctEnds s.length 0 (s.length - 1)
  have hdots : ∀ q ∈ basePairs m s gap,
      (List.replicate s.length '.')[q.1]? = some '.' ∧
      (List.replicate s.length '.')[q.2]? = some '.' ∧ q.1 ≠ q.2 := by
    intro q hq
    have hb := trace_pair_bounds s.length 0 (s.length - 1) q hq
    have hq2n : q.2 < s.length := by
      rcases Nat.eq_zero_or_pos s.length with h0 | h0
      · rw [basePairs, h0] at hq
        simp [trace_non_crossings] at hq
      · omega
    rw [List.getElem?_replicate, if_pos (by omega), List.getElem?_replicate, if_pos hq2n]
    exact ⟨rfl, rfl, by omega⟩
  have hc := base_render_count (basePairs m s gap) (List.replicate s.length '.') hdots hpw
  have h0 : (List.replicate s.length '.').count '{' = 0 := by
    simp [List.count_replicate]
  have h1 : (List.replicate s.length '.').count '}' = 0 := by
    simp [List.count_replicate]
  rw [baseOutput, base_output] at *
  rw [hc.1, hc.2, h0, h1]
  omega

/-- Claim C7, counterexample.  The stacked run on `AUA` records the pair
(0, 1); when it is decoded, position `k+1 = 1` is promoted to `{` first, so
the close mark at `j = 1` is skipped (the code only writes `}` at `j` when the
position still holds a dot): the final annotation holds `{` at position 1,
not `}` as the claim requires. -/
theorem stacked_close_mark_counterexample :
    (0, 1) ∈ stackedPairs ("AUA".toList) ∧
    (stackedOutput ("AUA".toList))[1]? = some '{' ∧
    (stackedOutput ("AUA".toList))[1]? ≠ some '}' := by
  refine ⟨by decide, by decide, by decide⟩

/-- Claim C7, amended: the stacked decoder processes recorded pairs in
recorded order, marking `k` with `{` unconditionally, promoting `k+1` to `{`
only if it holds a dot, marking `j` with `}` only if it holds a dot, and
force-marking `j+1` with `}`; after rendering, positions `k`, `k+1`, `j` and
`j+1` of every recorded pair hold bracket symbols (though `j` need not hold
`}`, see `stacked_close_mark_counterexample`). -/
theorem stacked_decode_marks (s : List Char) (k j : Nat)
    (h : (k, j) ∈ stackedPairs s) :
    brkAt (stackedOutput s) k ∧ brkAt (stackedOutput s) (k + 1) ∧
    brkAt (stackedOutput s) j ∧ brkAt (stackedOutput s) (j + 1) := by
  have hbnd : ∀ q ∈ stackedPairs s, q.1 < (List.replicate s.length '.').length ∧
      q.1 + 1 < (List.replicate s.length '.').length ∧
      q.2 < (List.replicate s.length '.').length ∧
      q.2 + 1 < (List.replicate s.length '.').length ∧ q.1 < q.2 := by
    intro q hq
    have := stacked_pair_bound_core (show (q.1, q.2) ∈ stackedPairs s from hq)
    rw [List.length_replicate]
    exact ⟨by omega, by omega, by omega, by omega, this.1⟩
  exact decode_marks_core (stackedPairs s) (List.replicate s.length '.')
    (charsOK_replicate _) hbnd (k, j) h

/-- Witness for `stacked_decode_marks`: the pair (0, 1) of the `AUA` run;
positions 0, 1 and 2 of the rendered annotation `{{}` all hold brackets. -/
theorem stacked_decode_marks_witness :
    (0, 1) ∈ stackedPairs ("AUA".toList) ∧
    (brkAt (stackedOutput ("AUA".toList)) 0 ∧ brkAt (stackedOutput ("AUA".toList)) (0 + 1) ∧
      brkAt (stackedOutput ("AUA".toList)) 1 ∧ brkAt (stackedOutput ("AUA".toList)) (1 + 1)) :=
  ⟨by decide, stacked_decode_marks ("AUA".toList) 0 1 (by decide)⟩

/-- Claim C9, confirmed: a position holding a symbol outside the recognized
alphabet is always rendered `.`: in the base variant (for any score map whose
legal pairs use only recognized symbols, as both `LEGAL_PAIRS` and
`LEGAL_PAIRS_ENERGY` do — `legal_pairs_chars`, `legal_pairs_energy_chars`),
such a position is never an endpoint of a recorded pair; in the stacked
variant it is never any of the four marked positions, because every marked
position belongs to a legal dinucleotide of the mapping. -/
theorem foreign_symbols_unpaired :
    (∀ (m : List ((Char × Char) × Int)),
      (∀ x y, (baseModel m).legal x y = true → x ∈ RECOG ∧ y ∈ RECOG) →
      ∀ (s : List Char) (gap p : Nat) (c : Char), s[p]? = some c → c ∉ RECOG →
        (baseOutput m s gap)[p]? = some '.') ∧
    (∀ (s : List Char) (p : Nat) (c : Char), s[p]? = some c → c ∉ RECOG →
      (stackedOutput s)[p]? = some '.') := by
  constructor
  · intro m hm s gap p c hc hcr
    have hp : p < s.length := (List.getElem?_eq_some.mp hc).1
    have hcs : symOf s p = c := by
      rw [symOf, List.getD_eq_getElem?_getD, hc]
      rfl
    have huntouched : ∀ q ∈ basePairs m s gap, p ≠ q.1 ∧ p ≠ q.2 := by
      intro q hq
      have hleg := trace_pair_legal s.length 0 (s.length - 1) q hq
      constructor
      · intro hpe
        have := (hm _ _ hleg).1
        rw [← hpe, hcs] at this
        exact hcr this
      · intro hpe
        have := (hm _ _ hleg).2
        rw [← hpe, hcs] at this
        exact hcr this
    rw [baseOutput, base_output, base_render_untouched _ _ p huntouched,
      List.getElem?_replicate, if_pos hp]
  · intro s p c hc hcr
    have hp : p < s.length := (List.getElem?_eq_some.mp hc).1
    have hcs : symOf s p = c := by
      rw [symOf, List.getD_eq_getElem?_getD, hc]
      rfl
    have huntouched : ∀ q ∈ stackedPairs s,
        p ≠ q.1 ∧ p ≠ q.1 + 1 ∧ p ≠ q.2 ∧ p ≠ q.2 + 1 := by
      intro q hq
      have hcore := stacked_pair_bound_core (show (q.1, q.2) ∈ stackedPairs s from hq)
      have hleg := trace_pair_legal s.length 0 (s.length - 1) q hq
      simp only [stackedFillModel, Bool.and_eq_true] at hleg
      have hchars1 := dinuc_legal_chars (by omega) hleg.1
      have hchars2 := dinuc_legal_chars (by omega) hleg.2
      refine ⟨?_, ?_, ?_, ?_⟩
      · intro hpe
        apply hcr
        rw [← hcs, hpe]
        exact hchars1.2.1
      · intro hpe
        apply hcr
        rw [← hcs, hpe]
        exact hchars1.2.2
      · intro hpe
        apply hcr
        rw [← hcs, hpe]
        exact hchars2.2.1
      · intro hpe
        apply hcr
        rw [← hcs, hpe]
        exact hchars2.2.2
    rw [stackedOutput, decode_output, decode_untouched _ _ p huntouched,
      List.getElem?_replicate, if_pos hp]

/-- Witness for `foreign_symbols_unpaired`: the flat run on `AXGC` renders
position 1 (symbol X) as a dot, and the stacked run on `AUAX` renders
position 3 (symbol X) as a dot. -/
theorem foreign_symbols_unpaired_witness :
    (baseOutput LEGAL_PAIRS ("AXGC".toList) 0)[1]? = some '.' ∧
    (stackedOutput ("AUAX".toList))[3]? = some '.' :=
  ⟨foreign_symbols_unpaired.1 LEGAL_PAIRS legal_pairs_chars ("AXGC".toList) 0 1 'X'
      (by decide) (by decide),
    foreign_symbols_unpaired.2 ("AUAX".toList) 3 'X' (by decide) (by decide)⟩

/-- Claim C10, confirmed: in the stacked variant, a recorded pair (k, j)
always has a legal dinucleotide at `j`, and the last dinucleotide position
`(s[n-1], '')` is never legal, so `j ≤ n - 2`; hence the decoder's writes at
`k`, `k+1`, `j` and `j+1` are all inside the length-n output list. -/
theorem stacked_pairs_in_bounds (s : List Char) (k j : Nat)
    (h : (k, j) ∈ stackedPairs s) :
    j + 2 ≤ s.length ∧ k + 1 < s.length ∧ j + 1 < s.length := by
  have := stacked_pair_bound_core h
  exact ⟨this.2, by omega, by omega⟩

/-- Witness for `stacked_pairs_in_bounds`: the pair (0, 1) of the `AUA` run;
`1 + 2 ≤ 3` and the write positions 1 and 2 are below 3. -/
theorem stacked_pairs_in_bounds_witness :
    1 + 2 ≤ ("AUA".toList).length ∧ 0 + 1 < ("AUA".toList).length ∧
      1 + 1 < ("AUA".toList).length :=
  stacked_pairs_in_bounds ("AUA".toList) 0 1 (by decide)

end RNA
